import Mathlib

/-!
Shallow embedding of `src/software/python/marker-testing.py`
(solo-fsw/sound-tone-marker) and proofs about it.

Modelling conventions:
* Python floats are modelled by `ℚ` where the script only performs field
  arithmetic and comparisons on them (frequencies, accuracies), and by `ℝ`
  where transcendental functions occur (waveform samples).
* Strings received over the serial line are modelled as `List Char`
  (code-point sequences ordered lexicographically, as in Python).
* The `while` loop of `frequency_mapping` is modelled with explicit fuel;
  the three observable outcomes of a call are captured by `PyOutcome`:
  normal return (`ok`), a raised exception (`error`, e.g. ZeroDivisionError
  or a failed `assert`), and a loop still running when the fuel runs out
  (`running`).
* Randomness (`np.random.normal`) is modelled by an explicit sample source
  `randn : ℕ → ℝ` passed in as a parameter.
* The physical tone-marker device is modelled as a function from the data
  that determines the transmitted tone (the active-bit subset, and for the
  sweep also the configuration case and the repetition index) to the list
  of reply lines it emits, in arrival order.  All `serial`/`sounddevice`
  plumbing is pure I/O and has no further observable effect on the values
  the script computes.
-/

/-! ### Constants (marker-testing.py lines 20-23) -/

def SAMPLING_FREQUENCY : ℚ := 44100

def RANGE : List ℚ := [16000, 18000]

def DURATION : ℚ := 1 / 2

/-! ### frequency_mapping (lines 26-43) -/

/-- Outcome of running a (possibly failing, possibly diverging) Python call. -/
inductive PyOutcome (α : Type) where
  | ok (a : α)
  | error
  | running
  deriving DecidableEq

def PyOutcome.isOk {α : Type} : PyOutcome α → Bool
  | .ok _ => true
  | _ => false

/-- The `while (starting_multiple * frequency_multiples) < RANGE[0]` loop of
`frequency_mapping` (lines 38-39), with explicit fuel.  `none` means the loop
was still running after `fuel` iterations. -/
def findMultiple (frequency_multiples : ℚ) : ℕ → ℕ → Option ℕ
  | 0, _ => none
  | fuel + 1, starting_multiple =>
    if (starting_multiple : ℚ) * frequency_multiples < RANGE.getD 0 0 then
      findMultiple frequency_multiples fuel (starting_multiple + 1)
    else
      some starting_multiple

/-- The dict comprehension
`{b: (starting_multiple + b) * frequency_multiples for b in range(n_bits)}`
(line 42), as the list of its values in key order `b = 0, 1, ...`. -/
def freq_list (goertzel_cycles : ℤ) (starting_multiple n_bits : ℕ) : List ℚ :=
  (List.range n_bits).map fun b : ℕ =>
    ((starting_multiple : ℚ) + (b : ℚ)) * (SAMPLING_FREQUENCY / (goertzel_cycles : ℚ))

/-- `frequency_mapping(goertzel_cycles, n_bits)` (lines 26-43).
`goertzel_cycles = 0` raises ZeroDivisionError at
`SAMPLING_FREQUENCY / goertzel_cycles` (modelled as `.error`); otherwise the
loop searches for the starting multiple and the mapping is returned. -/
def frequency_mapping (goertzel_cycles : ℤ) (n_bits : ℕ) (fuel : ℕ) : PyOutcome (List ℚ) :=
  if goertzel_cycles = 0 then .error
  else
    match findMultiple (SAMPLING_FREQUENCY / (goertzel_cycles : ℚ)) fuel 0 with
    | some starting_multiple => .ok (freq_list goertzel_cycles starting_multiple n_bits)
    | none => .running

/-! ### Subset enumeration (line 129 and line 145) -/

/-- `itertools.combinations(xs, r)`: all `r`-element combinations of `xs`
in the lexicographic order of their index positions. -/
def combinations {α : Type} : ℕ → List α → List (List α)
  | 0, _ => [[]]
  | _ + 1, [] => []
  | r + 1, x :: xs => (combinations r xs).map (x :: ·) ++ combinations (r + 1) xs

/-- `chain.from_iterable(combinations(bits, r) for r in range(1, len(bits) + 1))`
(line 129): every non-empty subset, grouped by increasing size, lexicographic
within a size. -/
def subsetsInOrder {α : Type} (bits : List α) : List (List α) :=
  (List.range' 1 bits.length).flatMap fun r => combinations r bits

/-- The same expression as it occurs a second time in `tune_parameters`
(line 145), producing the per-subset column labels of the results header. -/
def header_subset_columns {α : Type} (bits : List α) : List (List α) :=
  (List.range' 1 bits.length).flatMap fun r => combinations r bits

/-! ### collect_response (lines 115-124) and test_markers (lines 126-136) -/

/-- One reply line from the device, as its sequence of characters. -/
abbrev Line := List Char

/-- Insert `x` into an ascending duplicate-free list, keeping it so. -/
def insertUnique {α : Type} [LinearOrder α] (x : α) : List α → List α
  | [] => [x]
  | y :: ys =>
    if x = y then y :: ys
    else if x < y then x :: y :: ys
    else y :: insertUnique x ys

/-- `np.unique`: the distinct elements, sorted ascending. -/
def np_unique {α : Type} [LinearOrder α] (xs : List α) : List α :=
  xs.foldl (fun acc x => insertUnique x acc) []

/-- `collect_response(sound, device)` (lines 115-124): the lines read from the
device are collected in arrival order and then passed through `np.unique`.
Playing the sound and the polling/flush calls are pure I/O. -/
def collect_response (lines : List Line) : List Line :=
  np_unique lines

/-- The expected bitstring `''.join('1' if i in p else '0' for i in range(8))`
(line 130). -/
def correctLine (p : List ℕ) : Line :=
  (List.range 8).map fun i => if i ∈ p then '1' else '0'

/-- `test_markers(bits, freq_mapping, device, noise)` (lines 126-136).
For each enumerated subset the script synthesizes a tone (a function of the
subset, the frequency map and the noise), plays it, and the physical device
replies with some lines; `device p` is the reply-line list for subset `p` in
arrival order.  A slot of the counter becomes 1 exactly when the collected
response has exactly two entries and its last entry equals the expected
bitstring; otherwise it stays 0. -/
def test_markers (bits : List ℕ) (device : List ℕ → List Line) : List ℕ :=
  (subsetsInOrder bits).map fun p =>
    let correct := correctLine p
    let response := collect_response (device p)
    if response.length = 2 ∧ response.getLast? = some correct then 1 else 0

/-! ### makesine (lines 45-61) and create_sound (lines 63-87) -/

/-- `math.ceil(SAMPLING_FREQUENCY * DURATION)`: the sample count. -/
def nSamples (duration : ℚ) : ℕ :=
  (Int.ceil (SAMPLING_FREQUENCY * duration)).toNat

/-- `np.linspace(0, DURATION, n)` at index `i`: `i * DURATION / (n - 1)`
(with real subtraction; for `n = 1` numpy yields `[0.]`, matching the
division-by-zero convention `x / 0 = 0`). -/
def linspace_sample (duration : ℚ) (n : ℕ) (i : ℕ) : ℚ :=
  duration * (i : ℚ) / ((n : ℚ) - 1)

/-- The pure sine samples `np.sin(2 * np.pi * freq * t)` of `makesine`
(lines 55-56). -/
noncomputable def makesine_samples (duration : ℚ) (freq : ℚ) : List ℝ :=
  (List.range (nSamples duration)).map fun i =>
    Real.sin (2 * Real.pi * (freq : ℝ) * ((linspace_sample duration (nSamples duration) i : ℚ) : ℝ))

/-- `makesine(freq, noise)` (lines 45-61).  For `noise == 0` (falsy) the pure
sine is returned; for nonzero noise the `assert 0 <= noise <= 1` runs first
(failure modelled as `none`), then the signal is attenuated by `1 - noise`
and `np.random.normal(0, 1, N) * noise` is added. -/
noncomputable def makesine (randn : ℕ → ℝ) (duration : ℚ) (freq : ℚ) (noise : ℝ) :
    Option (List ℝ) :=
  if noise = 0 then some (makesine_samples duration freq)
  else if 0 ≤ noise ∧ noise ≤ 1 then
    some ((List.range (nSamples duration)).map fun i =>
      Real.sin (2 * Real.pi * (freq : ℝ) *
          ((linspace_sample duration (nSamples duration) i : ℚ) : ℝ)) * (1 - noise)
        + randn i * noise)
  else none

/-- A numpy value that is either the scalar `0` the accumulator `sine` starts
from (line 79) or a sample array. -/
inductive NPVal where
  | scalar (x : ℝ)
  | arr (xs : List ℝ)

/-- `sine += array`: numpy broadcasting of `+` onto the accumulator. -/
noncomputable def npAdd : NPVal → List ℝ → NPVal
  | .scalar x, ys => .arr (ys.map fun y => x + y)
  | .arr xs, ys => .arr (List.zipWith (· + ·) xs ys)

/-- The gain table `[None, 0.3, 0.3, 0.11, 0.07]` (line 78), indexed by
`len(bits)`.  The `None` entry at index 0 is representable but is never
consumed: the only consumer is the loop body, which does not run for an
empty bit list. -/
noncomputable def gainTable : List (Option ℝ) :=
  [none, some 0.3, some 0.3, some 0.11, some 0.07]

/-- `create_sound(bits, freq_mapping, noise, return_sound=False)`
(lines 63-87).  `assert len(bits) <= 4` fails (`none`) for more than four
bits; otherwise the sines of the active bits (each synthesized by
`makesine(freq_mapping[b], 0.0)`, i.e. with zero noise) are scaled by the
cardinality-indexed gain and summed onto the scalar `0`, and for nonzero
`noise` a fresh normal sample array scaled by `noise` is added on top.
No check of `noise` itself is ever performed here. -/
noncomputable def create_sound (randn : ℕ → ℝ) (duration : ℚ) (bits : List ℕ)
    (freq_mapping_dict : ℕ → ℚ) (noise : ℝ) : Option NPVal :=
  if bits.length > 4 then none
  else
    let gain : ℝ := (gainTable.getD bits.length none).getD 0
    let sine : NPVal := bits.foldl
      (fun acc b =>
        npAdd acc (((makesine randn duration (freq_mapping_dict b) 0).getD []).map
          fun y => y * gain))
      (.scalar 0)
    let sine2 : NPVal :=
      if noise = 0 then sine
      else npAdd sine ((List.range (nSamples duration)).map fun i => randn i * noise)
    some sine2

/-! ### tune_parameters (lines 138-173) -/

/-- `itertools.product(*tuple(tune_ranges.values()))`: the cartesian product
of the candidate tuples, first dimension varying slowest. -/
def listProd {α : Type} : List (List α) → List (List α)
  | [] => [[]]
  | xs :: rest => xs.flatMap fun x => (listProd rest).map (x :: ·)

/-- numpy `accuracy += results` on equal-length vectors. -/
def addVec (xs ys : List ℚ) : List ℚ :=
  List.zipWith (· + ·) xs ys

/-- The repetition loop of `tune_parameters` (lines 167-169): starting from
`np.zeros(n_tests)`, accumulate the success vector of `test_markers` over the
repetitions.  `device r` gives the device replies during repetition `r`. -/
def accumulate_accuracy (device : ℕ → List ℕ → List Line) (bits : List ℕ) : ℕ → List ℚ
  | 0 => List.replicate (2 ^ bits.length - 1) 0
  | n + 1 =>
    addVec (accumulate_accuracy device bits n)
      ((test_markers bits (device n)).map fun c : ℕ => (c : ℚ))

/-- One appended results row (line 173): the overall accuracy
`np.sum(accuracy) / n_tests` followed (after the echoed configuration
columns) by the per-symbol accuracy vector. -/
structure SweepRecord where
  accuracy : ℚ
  perSymbol : List ℚ
  deriving DecidableEq

/-- The body of the `for nr, case in enumerate(cases)` loop for one case
(lines 150-173), after the device has been reprogrammed: run the evaluator
`n_repetitions` times, divide the accumulated vector by `n_repetitions`,
and build the appended record. -/
def run_case (bits : List ℕ) (n_repetitions : ℕ) (device : ℕ → List ℕ → List Line) :
    SweepRecord :=
  let n_tests : ℕ := 2 ^ bits.length - 1
  let acc : List ℚ :=
    (accumulate_accuracy device bits n_repetitions).map fun x => x / (n_repetitions : ℚ)
  { accuracy := acc.sum / (n_tests : ℚ), perSymbol := acc }

/-- The case loop of `tune_parameters`: each case first recomputes
`frequency_mapping(goertzel)` with `goertzel = case[3]` (modelled by the
projection `caseGoertzel`); if that call raises or hangs, the sweep stops
there and only the records appended so far persist. -/
def sweep_cases {α : Type} (caseGoertzel : List α → ℤ) (fuel : ℕ) (bits : List ℕ)
    (n_repetitions : ℕ) (device : List α → ℕ → List ℕ → List Line) :
    List (List α) → List SweepRecord
  | [] => []
  | case :: rest =>
    if (frequency_mapping (caseGoertzel case) 8 fuel).isOk then
      run_case bits n_repetitions (device case) ::
        sweep_cases caseGoertzel fuel bits n_repetitions device rest
    else []

/-- `tune_parameters(bits, tune_ranges, n_repetitions, device, noise)`
(lines 138-173), as the list of records it appends to the results store.
`tune_ranges` is the list of candidate tuples of the named dimensions, in
dict order; `device case r p` gives the reply lines for subset `p` during
repetition `r` under configuration `case`. -/
def tune_parameters {α : Type} (tune_ranges : List (List α)) (caseGoertzel : List α → ℤ)
    (fuel : ℕ) (bits : List ℕ) (n_repetitions : ℕ)
    (device : List α → ℕ → List ℕ → List Line) : List SweepRecord :=
  sweep_cases caseGoertzel fuel bits n_repetitions device (listProd tune_ranges)

/-! ### Helper lemmas: the starting-multiple loop -/

theorem range_getD_zero : RANGE.getD 0 0 = 16000 := rfl

theorem range_getD_one : RANGE.getD 1 0 = 18000 := rfl

/-- With a negative step, every multiple stays below `RANGE[0]`, so the loop
never exits, whatever the fuel. -/
theorem findMultiple_neg {step : ℚ} (hstep : step < 0) :
    ∀ fuel k, findMultiple step fuel k = none := by
  intro fuel
  induction fuel with
  | zero => intro k; rfl
  | succ f ih =>
    intro k
    have hle : (k : ℚ) * step ≤ 0 := mul_nonpos_of_nonneg_of_nonpos (Nat.cast_nonneg k) hstep.le
    have hc : (k : ℚ) * step < RANGE.getD 0 0 := by
      rw [range_getD_zero]; exact lt_of_le_of_lt hle (by norm_num)
    simp only [findMultiple, if_pos hc]
    exact ih (k + 1)

/-- If `m` is the first multiple at which the loop condition fails, then the
loop started at any `k ≤ m` with fuel `m - k + 1` returns `m`. -/
theorem findMultiple_eq (step : ℚ) (m : ℕ)
    (hm : ¬((m : ℚ) * step < RANGE.getD 0 0))
    (hlt : ∀ j : ℕ, j < m → (j : ℚ) * step < RANGE.getD 0 0) :
    ∀ d k, k + d = m → findMultiple step (d + 1) k = some m := by
  intro d
  induction d with
  | zero =>
    intro k hk
    have hkm : k = m := by omega
    subst hkm
    simp only [findMultiple, if_neg hm]
  | succ d ih =>
    intro k hk
    have hkm : k < m := by omega
    simp only [findMultiple, if_pos (hlt k hkm)]
    exact ih (k + 1) (by omega)

theorem getD_map_range {M : Type} [Inhabited M] (f : ℕ → M) {b n : ℕ} (h : b < n) (d : M) :
    (((List.range n).map f).getD b d) = f b := by
  rw [List.getD_eq_getElem?_getD, List.getElem?_map, List.getElem?_range h]
  rfl

theorem freq_list_getD (g : ℤ) (k : ℕ) {b n : ℕ} (h : b < n) :
    (freq_list g k n).getD b 0 = ((k : ℚ) + (b : ℚ)) * (SAMPLING_FREQUENCY / (g : ℚ)) := by
  unfold freq_list
  exact getD_map_range _ h 0

/-- Claim C2: for every positive `goertzel_cycles` and every `n_bits`, the
mapping terminates (for sufficient fuel) and maps bit `b` to
`(k + b) * step` where `step = SAMPLING_FREQUENCY / goertzel_cycles` and `k`
is the least multiple with `k * step ≥ RANGE[0]`; the output is strictly
increasing with constant spacing `step`, and bit 0 is at least `RANGE[0]`. -/
theorem frequency_mapping_increasing (g : ℤ) (hg : 0 < g) (n : ℕ) :
    ∃ fuel k, frequency_mapping g n fuel = .ok (freq_list g k n) ∧
      RANGE.getD 0 0 ≤ (k : ℚ) * (SAMPLING_FREQUENCY / (g : ℚ)) ∧
      (∀ j : ℕ, j < k → (j : ℚ) * (SAMPLING_FREQUENCY / (g : ℚ)) < RANGE.getD 0 0) ∧
      (∀ b : ℕ, b < n →
        (freq_list g k n).getD b 0 = ((k : ℚ) + (b : ℚ)) * (SAMPLING_FREQUENCY / (g : ℚ))) ∧
      (∀ b : ℕ, b + 1 < n →
        (freq_list g k n).getD (b + 1) 0
            = (freq_list g k n).getD b 0 + SAMPLING_FREQUENCY / (g : ℚ) ∧
          (freq_list g k n).getD b 0 < (freq_list g k n).getD (b + 1) 0) ∧
      (0 < n → RANGE.getD 0 0 ≤ (freq_list g k n).getD 0 0) := by
  have hgQ : (0 : ℚ) < (g : ℚ) := by exact_mod_cast hg
  have hstep : (0 : ℚ) < SAMPLING_FREQUENCY / (g : ℚ) :=
    div_pos (by norm_num [SAMPLING_FREQUENCY]) hgQ
  set step : ℚ := SAMPLING_FREQUENCY / (g : ℚ) with hstepdef
  have hex : ∃ k : ℕ, ¬((k : ℚ) * step < RANGE.getD 0 0) := by
    refine ⟨(Int.ceil (RANGE.getD 0 0 / step)).toNat, not_lt.mpr ?_⟩
    have hcn : (0 : ℤ) ≤ Int.ceil (RANGE.getD 0 0 / step) :=
      Int.ceil_nonneg (by rw [range_getD_zero]; positivity)
    have hcast : ((Int.ceil (RANGE.getD 0 0 / step)).toNat : ℚ)
        = ((Int.ceil (RANGE.getD 0 0 / step) : ℤ) : ℚ) := by
      exact_mod_cast congrArg (fun z : ℤ => (z : ℚ)) (Int.toNat_of_nonneg hcn)
    rw [hcast]
    have hle : RANGE.getD 0 0 / step ≤ ((Int.ceil (RANGE.getD 0 0 / step) : ℤ) : ℚ) :=
      Int.le_ceil _
    calc RANGE.getD 0 0 = RANGE.getD 0 0 / step * step := by
          rw [div_mul_cancel₀ _ hstep.ne']
      _ ≤ ((Int.ceil (RANGE.getD 0 0 / step) : ℤ) : ℚ) * step :=
          mul_le_mul_of_nonneg_right hle hstep.le
  classical
  refine ⟨Nat.find hex + 1, Nat.find hex, ?_, not_lt.mp (Nat.find_spec hex), ?_, ?_, ?_, ?_⟩
  · have hloop : findMultiple step (Nat.find hex + 1) 0 = some (Nat.find hex) :=
      findMultiple_eq step (Nat.find hex) (Nat.find_spec hex)
        (fun j hj => not_not.mp (Nat.find_min hex hj)) (Nat.find hex) 0 (by omega)
    unfold frequency_mapping
    rw [if_neg (by exact_mod_cast hg.ne')]
    rw [← hstepdef, hloop]
  · exact fun j hj => not_not.mp (Nat.find_min hex hj)
  · exact fun b hb => freq_list_getD g _ hb
  · intro b hb
    have h1 : b < n := by omega
    rw [freq_list_getD g _ hb, freq_list_getD g _ h1]
    constructor
    · push_cast
      ring
    · have : (b : ℚ) < (b : ℚ) + 1 := by linarith
      have hmul : ((Nat.find hex : ℚ) + (b : ℚ)) * step
          < ((Nat.find hex : ℚ) + ((b : ℚ) + 1)) * step := by
        apply mul_lt_mul_of_pos_right _ hstep
        linarith
      calc ((Nat.find hex : ℚ) + (b : ℚ)) * step
          < ((Nat.find hex : ℚ) + ((b : ℚ) + 1)) * step := hmul
        _ = ((Nat.find hex : ℚ) + ((b : ℚ) + 1)) * step := rfl
        _ = ((Nat.find hex : ℚ) + (((b : ℕ) + 1 : ℕ) : ℚ)) * step := by push_cast; ring
  · intro hn
    rw [freq_list_getD g _ hn]
    have := not_lt.mp (Nat.find_spec hex)
    calc RANGE.getD 0 0 ≤ (Nat.find hex : ℚ) * step := this
      _ = ((Nat.find hex : ℚ) + ((0 : ℕ) : ℚ)) * step := by push_cast; ring

/-- Witness for C2 at `goertzel_cycles = 150`, `n_bits = 8`. -/
theorem frequency_mapping_increasing_witness :
    (0 : ℤ) < 150 ∧
    ∃ fuel k, frequency_mapping 150 8 fuel = .ok (freq_list 150 k 8) ∧
      RANGE.getD 0 0 ≤ (k : ℚ) * (SAMPLING_FREQUENCY / ((150 : ℤ) : ℚ)) ∧
      (∀ j : ℕ, j < k → (j : ℚ) * (SAMPLING_FREQUENCY / ((150 : ℤ) : ℚ)) < RANGE.getD 0 0) ∧
      (∀ b : ℕ, b < 8 →
        (freq_list 150 k 8).getD b 0
          = ((k : ℚ) + (b : ℚ)) * (SAMPLING_FREQUENCY / ((150 : ℤ) : ℚ))) ∧
      (∀ b : ℕ, b + 1 < 8 →
        (freq_list 150 k 8).getD (b + 1) 0
            = (freq_list 150 k 8).getD b 0 + SAMPLING_FREQUENCY / ((150 : ℤ) : ℚ) ∧
          (freq_list 150 k 8).getD b 0 < (freq_list 150 k 8).getD (b + 1) 0) ∧
      (0 < 8 → RANGE.getD 0 0 ≤ (freq_list 150 k 8).getD 0 0) :=
  ⟨by norm_num, frequency_mapping_increasing 150 (by norm_num) 8⟩

/-- Concrete evaluation: at `goertzel_cycles = 150` the loop exits at
multiple 55 and the eight mapped frequencies are `16170 .. 18228`. -/
theorem freq_mapping_150_eval :
    frequency_mapping 150 8 56 =
      .ok [16170, 16464, 16758, 17052, 17346, 17640, 17934, 18228] := by
  have hstep : SAMPLING_FREQUENCY / ((150 : ℤ) : ℚ) = 294 := by
    norm_num [SAMPLING_FREQUENCY]
  have h55 : findMultiple (SAMPLING_FREQUENCY / ((150 : ℤ) : ℚ)) 56 0 = some 55 := by
    rw [hstep]
    refine findMultiple_eq 294 55 ?_ ?_ 55 0 rfl
    · rw [range_getD_zero]; norm_num
    · intro j hj
      rw [range_getD_zero]
      have hle : (j : ℚ) ≤ 54 := by exact_mod_cast Nat.lt_succ_iff.mp hj
      nlinarith
  unfold frequency_mapping
  rw [if_neg (by norm_num : ¬(150 : ℤ) = 0), h55]
  unfold freq_list
  rw [show List.range 8 = [0, 1, 2, 3, 4, 5, 6, 7] from rfl]
  simp only [List.map_cons, List.map_nil, hstep]
  norm_num

/-- Claim C5: for `goertzel_cycles = 150` the step is `294`, the smallest
multiple reaching `RANGE[0] = 16000` is `55` (all 55 earlier multiples fall
short), the mapping is returned (no upper-bound check) with bit 0 at `16170`
and bit 7 at `18228`, which exceeds the stated upper bound `RANGE[1] = 18000`. -/
theorem frequency_mapping_150_overflow :
    SAMPLING_FREQUENCY / ((150 : ℤ) : ℚ) = 294 ∧
    ((List.range 55).all fun j => 294 * j < 16000) = true ∧
    (16000 : ℚ) ≤ (55 : ℚ) * 294 ∧
    frequency_mapping 150 8 56 =
      .ok [16170, 16464, 16758, 17052, 17346, 17640, 17934, 18228] ∧
    RANGE.getD 1 0 < 18228 := by
  refine ⟨by norm_num [SAMPLING_FREQUENCY], by decide, by norm_num, freq_mapping_150_eval, ?_⟩
  rw [range_getD_one]
  norm_num

/-- Claim C7, amended.  For `goertzel_cycles = 0` the division raises
(ZeroDivisionError), so no mapping is returned; for every negative
`goertzel_cycles` the step is negative, the multiplier search never
terminates, and no error is raised and no mapping returned, however long
the loop runs.  Only the zero case actually fails with an error. -/
theorem frequency_mapping_nonpositive_amended :
    (∀ n fuel, frequency_mapping 0 n fuel = .error) ∧
    (∀ g : ℤ, g < 0 → ∀ n fuel, frequency_mapping g n fuel = .running) := by
  constructor
  · intro n fuel
    unfold frequency_mapping
    rw [if_pos rfl]
  · intro g hg n fuel
    have hgQ : ((g : ℤ) : ℚ) < 0 := by exact_mod_cast hg
    have hstep : SAMPLING_FREQUENCY / ((g : ℤ) : ℚ) < 0 :=
      div_neg_of_pos_of_neg (by norm_num [SAMPLING_FREQUENCY]) hgQ
    unfold frequency_mapping
    rw [if_neg (by exact_mod_cast hg.ne), findMultiple_neg hstep fuel 0]

/-- Counterexample to claim C7 as stated: at `goertzel_cycles = -1` the call
does not fail with an error — after 100 loop iterations it is still
searching (and `findMultiple_neg` shows it stays so forever). -/
theorem frequency_mapping_negative_counterexample :
    frequency_mapping (-1) 8 100 = .running ∧
    frequency_mapping (-1) 8 100 ≠ .error := by
  have h : frequency_mapping (-1) 8 100 = .running := by
    have hstep : SAMPLING_FREQUENCY / ((-1 : ℤ) : ℚ) < 0 := by
      norm_num [SAMPLING_FREQUENCY]
    unfold frequency_mapping
    rw [if_neg (by norm_num), findMultiple_neg hstep 100 0]
  exact ⟨h, by rw [h]; exact fun hc => PyOutcome.noConfusion hc⟩

/-- Witness for the amended C7 at `goertzel_cycles = -3`. -/
theorem frequency_mapping_nonpositive_witness :
    (-3 : ℤ) < 0 ∧ frequency_mapping (-3) 8 5 = .running :=
  ⟨by norm_num, frequency_mapping_nonpositive_amended.2 (-3) (by norm_num) 8 5⟩

/-! ### Helper lemmas: subset enumeration -/

theorem combinations_length {α : Type} :
    ∀ (r : ℕ) (xs : List α), (combinations r xs).length = xs.length.choose r := by
  intro r xs
  induction xs generalizing r with
  | nil =>
    cases r with
    | zero => rfl
    | succ r => simp [combinations]
  | cons x xs ih =>
    cases r with
    | zero => simp [combinations]
    | succ r =>
      simp only [combinations, List.length_append, List.length_map, ih,
        List.length_cons, Nat.choose_succ_succ]

theorem list_map_range_sum (f : ℕ → ℕ) (m : ℕ) :
    ((List.range m).map f).sum = ∑ i ∈ Finset.range m, f i := by
  induction m with
  | zero => simp
  | succ k ih => rw [List.range_succ, Finset.sum_range_succ]; simp [ih]

theorem subsetsInOrder_length {α : Type} (bits : List α) :
    (subsetsInOrder bits).length = 2 ^ bits.length - 1 := by
  unfold subsetsInOrder
  rw [List.length_flatMap, List.range'_eq_map_range, List.map_map]
  have hmap : (List.range bits.length).map
        ((List.length ∘ fun r => combinations r bits) ∘ fun x => 1 + x)
      = (List.range bits.length).map fun i => bits.length.choose (i + 1) := by
    apply List.map_congr_left
    intro i _
    simp [combinations_length, Nat.add_comm 1 i]
  rw [hmap, list_map_range_sum]
  have hsum := Finset.sum_range_succ' (fun i => bits.length.choose i) bits.length
  have hchoose := Nat.sum_range_choose bits.length
  have h0 : bits.length.choose 0 = 1 := Nat.choose_zero_right _
  omega

theorem test_markers_length (bits : List ℕ) (device : List ℕ → List Line) :
    (test_markers bits device).length = 2 ^ bits.length - 1 := by
  unfold test_markers
  rw [List.length_map, subsetsInOrder_length]

/-- Claim C3: the evaluator enumerates exactly `2 ^ n - 1` non-empty subsets
(15 for the 4-bit universe `[0, 1, 2, 3]`, in the concrete order listed:
grouped by increasing size, lexicographic within a size), the success-count
vector has one slot per subset in that order, and the persisted-results
header lists the subset columns in the same order. -/
theorem subset_enumeration_order :
    (∀ bits : List ℕ, (subsetsInOrder bits).length = 2 ^ bits.length - 1) ∧
    subsetsInOrder [0, 1, 2, 3] =
      [[0], [1], [2], [3],
       [0, 1], [0, 2], [0, 3], [1, 2], [1, 3], [2, 3],
       [0, 1, 2], [0, 1, 3], [0, 2, 3], [1, 2, 3],
       [0, 1, 2, 3]] ∧
    (subsetsInOrder [0, 1, 2, 3]).length = 15 ∧
    ((subsetsInOrder [0, 1, 2, 3]).map List.length).Sorted (· ≤ ·) ∧
    (∀ (bits : List ℕ) (device : List ℕ → List Line),
      (test_markers bits device).length = 2 ^ bits.length - 1) ∧
    (∀ bits : List ℕ, header_subset_columns bits = subsetsInOrder bits) :=
  ⟨subsetsInOrder_length, by decide, by decide, by decide,
    test_markers_length, fun _ => rfl⟩

/-! ### Helper lemmas: np_unique -/

theorem mem_insertUnique {α : Type} [LinearOrder α] (x a : α) :
    ∀ l : List α, a ∈ insertUnique x l ↔ a = x ∨ a ∈ l := by
  intro l
  induction l with
  | nil => simp [insertUnique]
  | cons y ys ih =>
    simp only [insertUnique]
    split_ifs with hxy hlt
    · subst hxy
      simp only [List.mem_cons]
      tauto
    · simp only [List.mem_cons]
    · simp only [List.mem_cons, ih]
      tauto

theorem sorted_insertUnique {α : Type} [LinearOrder α] (x : α) :
    ∀ l : List α, l.Sorted (· < ·) → (insertUnique x l).Sorted (· < ·) := by
  intro l
  induction l with
  | nil => intro _; exact List.sorted_singleton x
  | cons y ys ih =>
    intro hs
    obtain ⟨hy, hys⟩ := List.sorted_cons.mp hs
    unfold insertUnique
    by_cases hxy : x = y
    · rw [if_pos hxy]; exact hs
    · rw [if_neg hxy]
      by_cases hlt : x < y
      · rw [if_pos hlt]
        refine List.sorted_cons.mpr ⟨?_, hs⟩
        intro b hb
        rcases List.mem_cons.mp hb with hb | hb
        · exact hb ▸ hlt
        · exact hlt.trans (hy b hb)
      · rw [if_neg hlt]
        have hyx : y < x := lt_of_le_of_ne (not_lt.mp hlt) (Ne.symm hxy)
        refine List.sorted_cons.mpr ⟨?_, ih hys⟩
        intro b hb
        rcases (mem_insertUnique x b ys).mp hb with hb | hb
        · exact hb ▸ hyx
        · exact hy b hb

theorem np_unique_go {α : Type} [LinearOrder α] :
    ∀ (xs : List α) (acc : List α), acc.Sorted (· < ·) →
      (xs.foldl (fun acc x => insertUnique x acc) acc).Sorted (· < ·) ∧
      ∀ a, a ∈ xs.foldl (fun acc x => insertUnique x acc) acc ↔ a ∈ acc ∨ a ∈ xs := by
  intro xs
  induction xs with
  | nil => intro acc hacc; simpa using hacc
  | cons x xs ih =>
    intro acc hacc
    rw [List.foldl_cons]
    obtain ⟨hsorted, hmem⟩ := ih (insertUnique x acc) (sorted_insertUnique x acc hacc)
    refine ⟨hsorted, fun a => ?_⟩
    rw [hmem a, mem_insertUnique]
    simp only [List.mem_cons]
    tauto

theorem np_unique_sorted {α : Type} [LinearOrder α] (xs : List α) :
    (np_unique xs).Sorted (· < ·) :=
  (np_unique_go xs [] (List.sorted_nil)).1

theorem mem_np_unique {α : Type} [LinearOrder α] (xs : List α) (a : α) :
    a ∈ np_unique xs ↔ a ∈ xs := by
  rw [np_unique, (np_unique_go xs [] List.sorted_nil).2 a]
  simp

theorem mem_of_getLast?_eq {α : Type} :
    ∀ (l : List α) (m : α), l.getLast? = some m → m ∈ l := by
  intro l
  induction l with
  | nil => intro m hm; exact absurd hm (by simp)
  | cons a t ih =>
    intro m hm
    cases t with
    | nil =>
      simp only [List.getLast?_singleton, Option.some.injEq] at hm
      simp [hm]
    | cons b t2 =>
      rw [List.getLast?_cons_cons] at hm
      exact List.mem_cons_of_mem a (ih m hm)

theorem sorted_getLast?_max {α : Type} [LinearOrder α] :
    ∀ l : List α, l.Sorted (· < ·) → ∀ m, l.getLast? = some m → ∀ y ∈ l, y ≤ m := by
  intro l
  induction l with
  | nil => intro _ m hm; exact absurd hm (by simp)
  | cons a t ih =>
    intro hs m hm y hy
    cases t with
    | nil =>
      simp only [List.getLast?_singleton, Option.some.injEq] at hm
      simp only [List.mem_singleton] at hy
      exact le_of_eq (hy.trans hm)
    | cons b t2 =>
      rw [List.getLast?_cons_cons] at hm
      obtain ⟨ha, hts⟩ := List.sorted_cons.mp hs
      rcases List.mem_cons.mp hy with hy | hy
      · have hmmem : m ∈ b :: t2 := mem_of_getLast?_eq _ m hm
        exact hy ▸ (ha m hmmem).le
      · exact ih hts m hm y hy

/-- Claim C10: `collect_response` returns the distinct reply lines sorted in
ascending lexicographic order, so the element `test_markers` inspects with
`response[-1]` is the lexicographically greatest distinct line, not the most
recently received one. -/
theorem collect_response_sorted_unique (lines : List Line) :
    (collect_response lines).Sorted (· < ·) ∧
    (collect_response lines).Nodup ∧
    (∀ a, a ∈ collect_response lines ↔ a ∈ lines) ∧
    (∀ m, (collect_response lines).getLast? = some m → ∀ y ∈ lines, y ≤ m) := by
  have hsorted : (collect_response lines).Sorted (· < ·) := np_unique_sorted lines
  refine ⟨hsorted, List.Pairwise.imp ne_of_lt hsorted, fun a => mem_np_unique lines a, ?_⟩
  intro m hm y hy
  exact sorted_getLast?_max _ hsorted m hm y ((mem_np_unique lines y).mpr hy)

/-- Witness for C10: the device sent `"b"` then `"a"`, and the element that
gets compared is `"b"`, the lexicographic maximum, giving `"a" ≤ "b"`. -/
theorem collect_response_sorted_unique_witness :
    (collect_response [['b'], ['a']]).getLast? = some ['b'] ∧ (['a'] : Line) ≤ ['b'] :=
  ⟨by decide,
    (collect_response_sorted_unique [['b'], ['a']]).2.2.2 ['b'] (by decide) ['a'] (by decide)⟩

theorem np_unique_pair {α : Type} [LinearOrder α] {a b : α} (h : a < b) :
    np_unique [a, b] = [a, b] := by
  unfold np_unique
  simp only [List.foldl_cons, List.foldl_nil]
  have h1 : insertUnique a ([] : List α) = [a] := rfl
  rw [h1]
  simp only [insertUnique]
  rw [if_neg h.ne', if_neg (lt_asymm h)]

/-- Counterexample to claim C1 as stated: for the 1-bit universe `[0]` the
stub device replies with exactly two lines, the second (most recently
received) being the expected bitstring `10000000` — yet because
`collect_response` sorts the distinct lines, `response[-1]` is the first
line `x` (which sorts after `1…`), and the trial is scored 0, not 1. -/
theorem test_markers_second_line_counterexample :
    ([['x'], correctLine [0]] : List Line).length = 2 ∧
    ([['x'], correctLine [0]] : List Line).getLast? = some (correctLine [0]) ∧
    test_markers [0] (fun p => [['x'], correctLine p]) = [0] := by
  decide

/-- Claim C1, amended.  A trial is scored a success exactly when the
collected response (the distinct reply lines in ascending order) has exactly
two entries and the greater one equals the expected bitstring.  Hence for a
device that, for every enumerated subset, replies with a line strictly
lexicographically below the expected bitstring followed by the expected
bitstring, every slot of the returned vector records a success. -/
theorem test_markers_two_line_protocol_amended (bits : List ℕ)
    (device : List ℕ → List Line) (junk : List ℕ → Line)
    (hdev : ∀ p ∈ subsetsInOrder bits,
      device p = [junk p, correctLine p] ∧ junk p < correctLine p) :
    test_markers bits device = List.replicate (2 ^ bits.length - 1) 1 := by
  rw [List.eq_replicate_iff]
  constructor
  · exact test_markers_length bits device
  · intro s hs
    unfold test_markers at hs
    rw [List.mem_map] at hs
    obtain ⟨p, hp, hscore⟩ := hs
    obtain ⟨hdev1, hlt⟩ := hdev p hp
    rw [← hscore]
    have hresp : collect_response (device p) = [junk p, correctLine p] := by
      rw [hdev1]
      exact np_unique_pair hlt
    simp only [hresp]
    rw [if_pos ⟨rfl, rfl⟩]

/-- Witness for the amended C1: a 1-bit universe and a stub device whose
first line `0` sorts below every expected bitstring. -/
theorem test_markers_two_line_protocol_witness :
    test_markers [0] (fun p => [['0'], correctLine p]) = List.replicate (2 ^ 1 - 1) 1 :=
  test_markers_two_line_protocol_amended [0] (fun p => [['0'], correctLine p])
    (fun _ => ['0']) (by decide)

/-! ### Helper lemmas: makesine and create_sound -/

theorem makesine_zero_noise (randn : ℕ → ℝ) (duration : ℚ) (freq : ℚ) :
    makesine randn duration freq 0 = some (makesine_samples duration freq) := by
  unfold makesine
  rw [if_pos rfl]

/-- `makesine` with nonzero noise outside `[0, 1]` hits the failing
`assert 0 <= noise <= 1`. -/
theorem makesine_invalid_noise (randn : ℕ → ℝ) (duration : ℚ) (freq : ℚ) (noise : ℝ)
    (h : noise < 0 ∨ 1 < noise) :
    makesine randn duration freq noise = none := by
  unfold makesine
  rcases h with h | h
  · rw [if_neg h.ne, if_neg]
    rintro ⟨h0, _⟩
    exact absurd h (not_lt.mpr h0)
  · rw [if_neg (by linarith), if_neg]
    rintro ⟨_, h1⟩
    exact absurd h (not_lt.mpr h1)

/-- `create_sound` returns a value (never raises) whenever at most four bits
are requested: the only assertion in it is `assert len(bits) <= 4`, and every
`makesine` call inside it passes the literal noise `0.0`. -/
theorem create_sound_total (randn : ℕ → ℝ) (duration : ℚ) (bits : List ℕ)
    (fm : ℕ → ℚ) (noise : ℝ) (h : bits.length ≤ 4) :
    (create_sound randn duration bits fm noise).isSome = true := by
  unfold create_sound
  rw [if_neg (not_lt.mpr h)]
  exact Option.isSome_some

theorem create_sound_too_many (randn : ℕ → ℝ) (duration : ℚ) (bits : List ℕ)
    (fm : ℕ → ℚ) (noise : ℝ) (h : 4 < bits.length) :
    create_sound randn duration bits fm noise = none := by
  unfold create_sound
  rw [if_pos h]

theorem create_sound_empty (randn : ℕ → ℝ) (duration : ℚ) (fm : ℕ → ℚ) :
    create_sound randn duration [] fm 0 = some (NPVal.scalar 0) := by
  unfold create_sound
  rw [if_neg (by norm_num)]
  simp only [List.foldl_nil, if_true]

/-- Claim C6: for a single active bit and zero noise, `create_sound` returns
exactly the pure sine at that bit's mapped frequency scaled by the gain 0.3,
sample for sample, with sample count `ceil(SAMPLING_FREQUENCY * duration)`. -/
theorem create_sound_single_bit_pure_sine (randn : ℕ → ℝ) (duration : ℚ)
    (b : ℕ) (fm : ℕ → ℚ) :
    create_sound randn duration [b] fm 0 =
      some (.arr ((makesine_samples duration (fm b)).map fun y => y * 0.3)) ∧
    makesine_samples duration (fm b) = (List.range (nSamples duration)).map
      (fun i => Real.sin (2 * Real.pi * ((fm b : ℚ) : ℝ) *
        ((linspace_sample duration (nSamples duration) i : ℚ) : ℝ))) ∧
    ((makesine_samples duration (fm b)).map fun y => y * 0.3).length = nSamples duration ∧
    nSamples duration = (Int.ceil (SAMPLING_FREQUENCY * duration)).toNat := by
  refine ⟨?_, rfl, ?_, rfl⟩
  · unfold create_sound
    rw [if_neg (by norm_num)]
    simp only [List.foldl_cons, List.foldl_nil, makesine_zero_noise, Option.getD_some,
      if_true]
    have hgain : ((gainTable.getD ([b] : List ℕ).length none).getD 0 : ℝ) = 0.3 := rfl
    rw [hgain]
    unfold npAdd
    simp only [List.map_map, Option.some.injEq, NPVal.arr.injEq]
    apply List.map_congr_left
    intro y _
    simp [Function.comp]
  · rw [List.length_map]
    unfold makesine_samples
    rw [List.length_map, List.length_range]

/-- Claim C8, amended.  `create_sound` fails (its only assertion,
`assert len(bits) <= 4`) exactly for more than four active bits; every size
up to four is accepted, including the empty set, which silently yields the
scalar `0` rather than a waveform or an error. -/
theorem create_sound_size_check_amended :
    (∀ (randn : ℕ → ℝ) (duration : ℚ) (bits : List ℕ) (fm : ℕ → ℚ) (noise : ℝ),
      4 < bits.length → create_sound randn duration bits fm noise = none) ∧
    (∀ (randn : ℕ → ℝ) (duration : ℚ) (bits : List ℕ) (fm : ℕ → ℚ) (noise : ℝ),
      bits.length ≤ 4 → (create_sound randn duration bits fm noise).isSome = true) ∧
    (∀ (randn : ℕ → ℝ) (duration : ℚ) (fm : ℕ → ℚ),
      create_sound randn duration [] fm 0 = some (NPVal.scalar 0)) :=
  ⟨create_sound_too_many, create_sound_total, create_sound_empty⟩

/-- Counterexample to claim C8 as stated: the empty active-bit set does not
fail with an error — `create_sound` returns the scalar `0`. -/
theorem create_sound_empty_counterexample :
    create_sound (fun _ => 0) DURATION [] (fun _ => 0) 0 = some (NPVal.scalar 0) ∧
    create_sound (fun _ => 0) DURATION [] (fun _ => 0) 0 ≠ none := by
  have h := create_sound_empty (fun _ => 0) DURATION (fun _ => 0)
  exact ⟨h, by rw [h]; exact Option.some_ne_none _⟩

/-- Witness for the amended C8: five bits trip the assertion. -/
theorem create_sound_size_check_witness :
    4 < ([0, 1, 2, 3, 4] : List ℕ).length ∧
    create_sound (fun _ => 0) DURATION [0, 1, 2, 3, 4] (fun _ => 0) 0 = none :=
  ⟨by norm_num,
    create_sound_size_check_amended.1 (fun _ => 0) DURATION [0, 1, 2, 3, 4]
      (fun _ => 0) 0 (by norm_num)⟩

/-- Claim C9, amended.  The `assert 0 <= noise <= 1` lives in `makesine` and
fires only when `makesine` is called with a nonzero out-of-range noise; but
`create_sound` invokes `makesine` exclusively with the literal noise `0.0`
and never validates its own `noise` argument, so it returns a waveform for
every noise value (whenever at most four bits are requested). -/
theorem noise_validation_amended :
    (∀ (randn : ℕ → ℝ) (duration : ℚ) (freq : ℚ) (noise : ℝ),
      noise < 0 ∨ 1 < noise → makesine randn duration freq noise = none) ∧
    (∀ (randn : ℕ → ℝ) (duration : ℚ) (bits : List ℕ) (fm : ℕ → ℚ) (noise : ℝ),
      bits.length ≤ 4 → (create_sound randn duration bits fm noise).isSome = true) :=
  ⟨makesine_invalid_noise, create_sound_total⟩

/-- Counterexample to claim C9 as stated: with noise `2`, far outside
`[0, 1]`, `create_sound` still returns a waveform instead of failing. -/
theorem create_sound_noise_counterexample :
    (create_sound (fun _ => 0) DURATION [0] (fun _ => 0) 2).isSome = true := by
  unfold create_sound
  rw [if_neg (by norm_num)]
  exact Option.isSome_some

/-- Witness for the amended C9 at noise `2`. -/
theorem noise_validation_witness :
    ((2 : ℝ) < 0 ∨ 1 < (2 : ℝ)) ∧
    makesine (fun _ => 0) DURATION 440 2 = none :=
  ⟨Or.inr (by norm_num),
    noise_validation_amended.1 (fun _ => 0) DURATION 440 2 (Or.inr (by norm_num))⟩

/-! ### Helper lemmas: the parameter sweep -/

theorem listProd_length {α : Type} :
    ∀ ls : List (List α), (listProd ls).length = (ls.map List.length).prod := by
  intro ls
  induction ls with
  | nil => rfl
  | cons xs rest ih =>
    simp only [listProd, List.length_flatMap, List.map_map, List.map_cons, List.prod_cons]
    have hconst : xs.map (List.length ∘ fun x => (listProd rest).map (x :: ·))
        = xs.map fun _ => (listProd rest).length := by
      apply List.map_congr_left
      intro x _
      simp
    rw [hconst, List.map_const', List.sum_replicate, smul_eq_mul, ih]

theorem accumulate_accuracy_length (device : ℕ → List ℕ → List Line) (bits : List ℕ) :
    ∀ n, (accumulate_accuracy device bits n).length = 2 ^ bits.length - 1 := by
  intro n
  induction n with
  | zero => simp [accumulate_accuracy]
  | succ n ih =>
    simp [accumulate_accuracy, addVec, List.length_zipWith, ih, test_markers_length]

theorem run_case_spec (bits : List ℕ) (n_repetitions : ℕ) (device : ℕ → List ℕ → List Line) :
    (run_case bits n_repetitions device).perSymbol
        = (accumulate_accuracy device bits n_repetitions).map
            (fun x => x / (n_repetitions : ℚ)) ∧
    (run_case bits n_repetitions device).perSymbol.length = 2 ^ bits.length - 1 ∧
    (run_case bits n_repetitions device).accuracy
        = (run_case bits n_repetitions device).perSymbol.sum
            / ((run_case bits n_repetitions device).perSymbol.length : ℚ) := by
  have hlen : (run_case bits n_repetitions device).perSymbol.length = 2 ^ bits.length - 1 := by
    show ((accumulate_accuracy device bits n_repetitions).map
      (fun x => x / (n_repetitions : ℚ))).length = _
    rw [List.length_map, accumulate_accuracy_length]
  refine ⟨rfl, hlen, ?_⟩
  rw [hlen]
  rfl

theorem sweep_cases_eq_map {α : Type} (caseGoertzel : List α → ℤ) (fuel : ℕ)
    (bits : List ℕ) (n_repetitions : ℕ) (device : List α → ℕ → List ℕ → List Line) :
    ∀ cases : List (List α),
      (∀ c ∈ cases, (frequency_mapping (caseGoertzel c) 8 fuel).isOk = true) →
      sweep_cases caseGoertzel fuel bits n_repetitions device cases
        = cases.map fun c => run_case bits n_repetitions (device c) := by
  intro cases
  induction cases with
  | nil => intro _; rfl
  | cons c rest ih =>
    intro h
    simp only [sweep_cases, List.map_cons]
    rw [if_pos (h c (List.mem_cons_self c rest)),
      ih fun x hx => h x (List.mem_cons_of_mem c hx)]

/-- Claim C4: under a sweep whose every case yields a valid frequency map,
`tune_parameters` appends exactly one record per element of the cartesian
product (so `m = (tune_ranges.map List.length).prod` records in total); each
record's per-symbol vector has length `2 ^ n - 1` and equals the success
counts accumulated over `n_repetitions` evaluator runs divided by
`n_repetitions`, and its overall accuracy is the arithmetic mean of that
vector. -/
theorem tune_parameters_records {α : Type} (tune_ranges : List (List α))
    (caseGoertzel : List α → ℤ) (fuel : ℕ) (bits : List ℕ) (n_repetitions : ℕ)
    (device : List α → ℕ → List ℕ → List Line)
    (hok : ∀ c ∈ listProd tune_ranges,
      (frequency_mapping (caseGoertzel c) 8 fuel).isOk = true) :
    tune_parameters tune_ranges caseGoertzel fuel bits n_repetitions device
        = (listProd tune_ranges).map (fun c => run_case bits n_repetitions (device c)) ∧
    (tune_parameters tune_ranges caseGoertzel fuel bits n_repetitions device).length
        = (tune_ranges.map List.length).prod ∧
    (∀ rec ∈ tune_parameters tune_ranges caseGoertzel fuel bits n_repetitions device,
      rec.perSymbol.length = 2 ^ bits.length - 1 ∧
      rec.accuracy = rec.perSymbol.sum / (rec.perSymbol.length : ℚ)) ∧
    (∀ c : List α, (run_case bits n_repetitions (device c)).perSymbol
        = (accumulate_accuracy (device c) bits n_repetitions).map
            fun x => x / (n_repetitions : ℚ)) := by
  have hmap := sweep_cases_eq_map caseGoertzel fuel bits n_repetitions device
    (listProd tune_ranges) hok
  have htp : tune_parameters tune_ranges caseGoertzel fuel bits n_repetitions device
      = (listProd tune_ranges).map fun c => run_case bits n_repetitions (device c) := by
    rw [tune_parameters, hmap]
  refine ⟨htp, ?_, ?_, fun c => (run_case_spec bits n_repetitions (device c)).1⟩
  · rw [htp, List.length_map, listProd_length]
  · intro rec hrec
    rw [htp, List.mem_map] at hrec
    obtain ⟨c, _, hc⟩ := hrec
    rw [← hc]
    exact ⟨(run_case_spec bits n_repetitions (device c)).2.1,
      (run_case_spec bits n_repetitions (device c)).2.2⟩

/-- Witness for C4: a two-dimensional sweep with `1 × 2 = 2` cases at
`goertzel = 150`, one repetition, over the 1-bit universe. -/
theorem tune_parameters_records_witness :
    (tune_parameters [[(0 : ℕ)], [1, 2]] (fun _ => (150 : ℤ)) 56 [0] 1
        (fun _ _ p => [['0'], correctLine p])).length
      = (([[(0 : ℕ)], [1, 2]] : List (List ℕ)).map List.length).prod :=
  (tune_parameters_records [[(0 : ℕ)], [1, 2]] (fun _ => (150 : ℤ)) 56 [0] 1
      (fun _ _ p => [['0'], correctLine p])
      (fun c _ => by rw [freq_mapping_150_eval]; rfl)).2.1
